import Mathlib

/-!
Shallow embedding of the incremental fuzzy-deduplication engine of
`src/main.py` (`fuzzy_grouping`, lines 34-57), together with a model of the
similarity oracle it delegates to (`process.extractOne` with the
token-sort scorer from the fuzzywuzzy library).

The Python dict `grouped_names` is embedded as an insertion-ordered
association list `List (String × String)`; `list(grouped_names.keys())`
is `keysOf`, `grouped_names[k]` is `lookupA k`, and `grouped_names[k] = v`
is `dictInsert`.  The run is instrumented: alongside the final mapping it
records, for every oracle call made, the candidate, the comparison set
passed and the oracle's answer.
-/

namespace FuzzyDedup

/-- Python `d[k]` on an insertion-ordered dict, as an association-list
lookup (`none` where Python would raise `KeyError`). -/
def lookupA (k : String) : List (String × String) → Option String
  | [] => none
  | (k', v) :: rest => if k' = k then some v else lookupA k rest

/-- Python `list(d.keys())`: the keys of the dict in insertion order. -/
def keysOf (m : List (String × String)) : List String := m.map Prod.fst

/-- Python `d[k] = v` on an insertion-ordered dict: overwrite in place if
the key is present, otherwise append at the end. -/
def dictInsert (m : List (String × String)) (k v : String) : List (String × String) :=
  if m.any (fun p => p.1 = k) then m.map (fun p => if p.1 = k then (k, v) else p)
  else m ++ [(k, v)]

/-- One scoring step of fuzzywuzzy `process.extractOne`: keep the current
best (first maximal) scored choice, replacing it only on a strictly
greater score, exactly as Python `max` over the choices in order. -/
def bestStep (scorer : String → String → Nat) (query : String)
    (best : Option (String × Nat)) (c : String) : Option (String × Nat) :=
  match best with
  | none => some (c, scorer query c)
  | some (m, s) => if scorer query c > s then some (c, scorer query c) else some (m, s)

/-- fuzzywuzzy `process.extractOne(query, choices, scorer=...)`: score every
choice against the query and return the first choice attaining the maximal
score together with that score; `none` on an empty choice list. -/
def extractOne (scorer : String → String → Nat) (query : String)
    (choices : List String) : Option (String × Nat) :=
  choices.foldl (bestStep scorer query) none

/-- One iteration of the loop of `fuzzy_grouping` (src/main.py lines 41-53),
instrumented: the state is the dict `grouped_names` paired with the log of
oracle calls made so far (candidate, comparison set, oracle answer).
If the dict is non-empty the oracle is consulted with the current keys;
a score strictly above the threshold groups the name under
`grouped_names[match]`, otherwise the name is grouped under itself.  An
empty dict takes the initialization branch with no oracle call. -/
def runStep (scorer : String → String → Nat) (t : Nat)
    (st : List (String × String) × List (String × List String × Option (String × Nat)))
    (name : String) :
    List (String × String) × List (String × List String × Option (String × Nat)) :=
  if st.1.isEmpty then
    (dictInsert st.1 name name, st.2)
  else
    (match extractOne scorer name (keysOf st.1) with
     | some (m, score) =>
       if score > t then dictInsert st.1 name ((lookupA m st.1).getD name)
       else dictInsert st.1 name name
     | none =>
       -- not reachable: the comparison set is non-empty whenever this branch runs
       dictInsert st.1 name name,
     st.2 ++ [(name, keysOf st.1, extractOne scorer name (keysOf st.1))])

/-- The instrumented clustering pass of `fuzzy_grouping` (src/main.py lines
36-53) over the distinct names, starting from the empty dict: returns the
final mapping together with the log of all oracle calls. -/
def fuzzy_grouping_run (scorer : String → String → Nat) (t : Nat)
    (names : List String) :
    List (String × String) × List (String × List String × Option (String × Nat)) :=
  names.foldl (runStep scorer t) ([], [])

/-- `fuzzy_grouping` (src/main.py lines 34-53): the mapping from each raw
name to its grouped (canonical) name, for a given scorer and threshold. -/
def fuzzy_grouping (scorer : String → String → Nat) (t : Nat)
    (names : List String) : List (String × String) :=
  (fuzzy_grouping_run scorer t names).1

/-- The number of distinct clusters of a mapping: the number of distinct
values (canonical names) it takes. -/
def numClusters (m : List (String × String)) : Nat :=
  ((m.map Prod.snd).toFinset).card

/-! ### The similarity oracle's scorer, modelled from the spec -/

/-- Inner loop of the longest-common-subsequence length: given the head
character `a` of the first word and the LCS function of its tail, compute
the LCS length of the full first word against the second word. -/
def lcsAux (a : Char) (lcsTail : List Char → Nat) : List Char → Nat
  | [] => 0
  | b :: bs => if a = b then 1 + lcsTail bs else max (lcsAux a lcsTail bs) (lcsTail (b :: bs))

/-- Length of the longest common subsequence of two character lists. -/
def lcsLen : List Char → List Char → Nat
  | [], _ => 0
  | a :: as, bs => lcsAux a (lcsLen as) bs

/-- Indel (insert/delete) edit distance between two character lists: the
classic edit distance without substitutions, via the LCS identity. -/
def indelDist (x y : List Char) : Nat := x.length + y.length - 2 * lcsLen x y

/-- Split a character list into its maximal whitespace-free tokens,
accumulating the (reversed) current token; empty tokens are dropped. -/
def splitTokensAux (cur : List Char) : List Char → List (List Char)
  | [] => if cur.isEmpty then [] else [cur.reverse]
  | c :: rest =>
    if c.isWhitespace then
      (if cur.isEmpty then [] else [cur.reverse]) ++ splitTokensAux [] rest
    else splitTokensAux (c :: cur) rest

/-- Whitespace tokenization of a character list (Python `str.split()`). -/
def splitTokens (cs : List Char) : List (List Char) := splitTokensAux [] cs

/-- Strict lexicographic code-point order on character lists (the order
Python `sorted` uses on strings). -/
def lexLt : List Char → List Char → Bool
  | [], [] => false
  | [], _ :: _ => true
  | _ :: _, [] => false
  | a :: as, b :: bs => if a < b then true else if b < a then false else lexLt as bs

/-- Insert a token into an ascending-sorted token list. -/
def insertTok (x : List Char) : List (List Char) → List (List Char)
  | [] => [x]
  | y :: ys => if lexLt x y then x :: y :: ys else y :: insertTok x ys

/-- Sort a token list into ascending lexicographic order. -/
def sortToks : List (List Char) → List (List Char)
  | [] => []
  | x :: xs => insertTok x (sortToks xs)

/-- Join tokens with single spaces (Python `" ".join(tokens)`). -/
def joinTokens : List (List Char) → List Char
  | [] => []
  | [t] => t
  | t :: t' :: ts => t ++ ' ' :: joinTokens (t' :: ts)

/-- Lowercase, tokenize, sort the tokens alphabetically and rejoin them. -/
def processSort (s : String) : List Char :=
  joinTokens (sortToks (splitTokens (s.data.map Char.toLower)))

/-- Modelled from the spec: the token-sort similarity scorer of the
Similarity Oracle (fuzzywuzzy `fuzz.token_sort_ratio`, a library function
whose code is not part of src/).  Per the spec it lowercases (the
comparison is case-insensitive), splits into whitespace tokens, sorts the
tokens alphabetically, rejoins them, and measures edit-distance-based
similarity of the two reconstructed strings, as an integer score in
[0,100] (100·(total length − edit distance)/total length, rounded). -/
def tokenSortScore (a b : String) : Nat :=
  let x := processSort a
  let y := processSort b
  if x.length + y.length = 0 then 100
  else (2 * (100 * (x.length + y.length - indelDist x y)) + (x.length + y.length)) /
    (2 * (x.length + y.length))

/-! ### Basic dictionary lemmas -/

theorem keysOf_append (g h : List (String × String)) :
    keysOf (g ++ h) = keysOf g ++ keysOf h := List.map_append _ _ _

theorem keysOf_eq_nil_iff {g : List (String × String)} : keysOf g = [] ↔ g = [] := by
  cases g <;> simp [keysOf]

theorem mem_keysOf_of_mem {p : String × String} {g : List (String × String)}
    (h : p ∈ g) : p.1 ∈ keysOf g := List.mem_map_of_mem Prod.fst h

theorem dictInsert_of_not_mem {k : String} {g : List (String × String)}
    (h : k ∉ keysOf g) (v : String) : dictInsert g k v = g ++ [(k, v)] := by
  have hfalse : (g.any fun p => p.1 = k) = false := by
    simp only [List.any_eq_false, decide_eq_true_eq]
    intro p hp hk
    exact h (hk ▸ mem_keysOf_of_mem hp)
  simp [dictInsert, hfalse]

theorem lookupA_append_of_mem {k : String} {g : List (String × String)}
    (h : k ∈ keysOf g) (h' : List (String × String)) :
    lookupA k (g ++ h') = lookupA k g := by
  induction g with
  | nil => simp [keysOf] at h
  | cons p ps ih =>
    obtain ⟨k', v⟩ := p
    rw [List.cons_append, lookupA, lookupA]
    by_cases hp : k' = k
    · rw [if_pos hp, if_pos hp]
    · rw [if_neg hp, if_neg hp]
      apply ih
      have hcases : k = k' ∨ ∃ x, (k, x) ∈ ps := by simpa [keysOf] using h
      rcases hcases with h1 | ⟨x, h2⟩
      · exact absurd h1.symm hp
      · exact mem_keysOf_of_mem h2

theorem lookupA_append_of_not_mem {k : String} {g : List (String × String)}
    (h : k ∉ keysOf g) (h' : List (String × String)) :
    lookupA k (g ++ h') = lookupA k h' := by
  induction g with
  | nil => rfl
  | cons p ps ih =>
    obtain ⟨k', v⟩ := p
    have hne : k' ≠ k := fun hk => h (by simp [keysOf, hk])
    rw [List.cons_append, lookupA, if_neg hne]
    exact ih (fun hk => h (by simp [keysOf] at hk ⊢; exact Or.inr hk))

theorem lookupA_eq_none {k : String} {g : List (String × String)}
    (h : k ∉ keysOf g) : lookupA k g = none := by
  have := lookupA_append_of_not_mem h []
  rw [List.append_nil] at this
  exact this

theorem lookupA_some_mem {k v : String} {g : List (String × String)}
    (h : lookupA k g = some v) : (k, v) ∈ g := by
  induction g with
  | nil => simp [lookupA] at h
  | cons p ps ih =>
    obtain ⟨k', v'⟩ := p
    rw [lookupA] at h
    by_cases hp : k' = k
    · rw [if_pos hp] at h
      exact List.mem_cons.mpr (Or.inl (by rw [hp, Option.some.inj h]))
    · rw [if_neg hp] at h
      exact List.mem_cons.mpr (Or.inr (ih h))

theorem mem_keysOf_of_lookupA {k v : String} {g : List (String × String)}
    (h : lookupA k g = some v) : k ∈ keysOf g :=
  mem_keysOf_of_mem (lookupA_some_mem h)

theorem exists_lookupA_of_mem {k : String} {g : List (String × String)}
    (h : k ∈ keysOf g) : ∃ v, lookupA k g = some v := by
  induction g with
  | nil => simp [keysOf] at h
  | cons p ps ih =>
    obtain ⟨k', v'⟩ := p
    by_cases hp : k' = k
    · exact ⟨v', by rw [lookupA, if_pos hp]⟩
    · have hcases : k = k' ∨ ∃ x, (k, x) ∈ ps := by simpa [keysOf] using h
      rcases hcases with h1 | ⟨x, h2⟩
      · exact absurd h1.symm hp
      · obtain ⟨v, hv⟩ := ih (mem_keysOf_of_mem h2)
        exact ⟨v, by rw [lookupA, if_neg hp]; exact hv⟩

theorem lookupA_append_self {k v : String} {g : List (String × String)}
    (h : k ∉ keysOf g) : lookupA k (g ++ [(k, v)]) = some v := by
  rw [lookupA_append_of_not_mem h, lookupA, if_pos rfl]

/-! ### Lemmas about the oracle `extractOne` -/

theorem foldl_bestStep_some (scorer : String → String → Nat) (q : String) :
    ∀ (cs : List String) (p : String × Nat),
      ∃ r, List.foldl (bestStep scorer q) (some p) cs = some r := by
  intro cs
  induction cs with
  | nil => exact fun p => ⟨p, rfl⟩
  | cons c cs' ih =>
    intro p
    obtain ⟨m, s⟩ := p
    have hb : bestStep scorer q (some (m, s)) c =
        if scorer q c > s then some (c, scorer q c) else some (m, s) := rfl
    by_cases hgt : scorer q c > s
    · rw [List.foldl_cons, hb, if_pos hgt]; exact ih _
    · rw [List.foldl_cons, hb, if_neg hgt]; exact ih _

theorem extractOne_ne_nil (scorer : String → String → Nat) (q : String)
    {cs : List String} (h : cs ≠ []) :
    ∃ m s, extractOne scorer q cs = some (m, s) := by
  cases cs with
  | nil => exact absurd rfl h
  | cons c cs' =>
    unfold extractOne
    rw [List.foldl_cons]
    have hb : bestStep scorer q none c = some (c, scorer q c) := rfl
    rw [hb]
    obtain ⟨⟨m, s⟩, hr⟩ := foldl_bestStep_some scorer q cs' (c, scorer q c)
    exact ⟨m, s, hr⟩

theorem foldl_bestStep_spec (scorer : String → String → Nat) (q : String) :
    ∀ (cs : List String) (b : Option (String × Nat)) (m : String) (s : Nat),
      List.foldl (bestStep scorer q) b cs = some (m, s) →
      b = some (m, s) ∨ (m ∈ cs ∧ s = scorer q m) := by
  intro cs
  induction cs with
  | nil =>
    intro b m s h
    rw [List.foldl_nil] at h
    exact Or.inl h
  | cons c cs' ih =>
    intro b m s h
    rw [List.foldl_cons] at h
    rcases ih (bestStep scorer q b c) m s h with h1 | h2
    · cases b with
      | none =>
        have he : (c, scorer q c) = (m, s) := by simpa [bestStep] using h1
        have hm : c = m := congrArg Prod.fst he
        have hs : scorer q c = s := congrArg Prod.snd he
        exact Or.inr ⟨hm ▸ List.mem_cons_self c cs', by rw [← hs, hm]⟩
      | some p =>
        obtain ⟨m0, s0⟩ := p
        by_cases hgt : scorer q c > s0
        · have he : (c, scorer q c) = (m, s) := by simpa [bestStep, hgt] using h1
          have hm : c = m := congrArg Prod.fst he
          have hs : scorer q c = s := congrArg Prod.snd he
          exact Or.inr ⟨hm ▸ List.mem_cons_self c cs', by rw [← hs, hm]⟩
        · have he : (m0, s0) = (m, s) := by simpa [bestStep, hgt] using h1
          exact Or.inl (by rw [he])
    · exact Or.inr ⟨List.mem_cons_of_mem _ h2.1, h2.2⟩

theorem extractOne_spec {scorer : String → String → Nat} {q : String}
    {cs : List String} {m : String} {s : Nat}
    (h : extractOne scorer q cs = some (m, s)) : m ∈ cs ∧ s = scorer q m := by
  rcases foldl_bestStep_spec scorer q cs none m s h with h1 | h2
  · simp at h1
  · exact h2

/-! ### Case lemmas for one loop iteration -/

theorem runStep_empty (scorer : String → String → Nat) (t : Nat)
    (log : List (String × List String × Option (String × Nat))) (name : String) :
    runStep scorer t ([], log) name = ([(name, name)], log) := rfl

theorem runStep_cons (scorer : String → String → Nat) (t : Nat)
    (p : String × String) (ps : List (String × String))
    (log : List (String × List String × Option (String × Nat))) (name : String) :
    runStep scorer t (p :: ps, log) name =
      ((match extractOne scorer name (keysOf (p :: ps)) with
        | some (m, score) =>
          if score > t then dictInsert (p :: ps) name ((lookupA m (p :: ps)).getD name)
          else dictInsert (p :: ps) name name
        | none => dictInsert (p :: ps) name name),
       log ++ [(name, keysOf (p :: ps), extractOne scorer name (keysOf (p :: ps)))]) := rfl

theorem runStep_snd_ne {g : List (String × String)} (scorer : String → String → Nat)
    (t : Nat) (log : List (String × List String × Option (String × Nat)))
    (name : String) (hg : g ≠ []) :
    (runStep scorer t (g, log) name).2 =
      log ++ [(name, keysOf g, extractOne scorer name (keysOf g))] := by
  cases g with
  | nil => exact absurd rfl hg
  | cons p ps => rw [runStep_cons]

theorem runStep_merge {g : List (String × String)} {m : String} {s : Nat}
    {scorer : String → String → Nat} {t : Nat}
    {log : List (String × List String × Option (String × Nat))} {name : String}
    (hg : g ≠ []) (hr : extractOne scorer name (keysOf g) = some (m, s)) (hs : t < s) :
    (runStep scorer t (g, log) name).1 = dictInsert g name ((lookupA m g).getD name) := by
  cases g with
  | nil => exact absurd rfl hg
  | cons p ps =>
    rw [runStep_cons]
    show (match extractOne scorer name (keysOf (p :: ps)) with
      | some (m, score) =>
        if score > t then dictInsert (p :: ps) name ((lookupA m (p :: ps)).getD name)
        else dictInsert (p :: ps) name name
      | none => dictInsert (p :: ps) name name) = _
    rw [hr]
    exact if_pos hs

theorem runStep_keep {g : List (String × String)} {m : String} {s : Nat}
    {scorer : String → String → Nat} {t : Nat}
    {log : List (String × List String × Option (String × Nat))} {name : String}
    (hg : g ≠ []) (hr : extractOne scorer name (keysOf g) = some (m, s)) (hs : s ≤ t) :
    (runStep scorer t (g, log) name).1 = dictInsert g name name := by
  cases g with
  | nil => exact absurd rfl hg
  | cons p ps =>
    rw [runStep_cons]
    show (match extractOne scorer name (keysOf (p :: ps)) with
      | some (m, score) =>
        if score > t then dictInsert (p :: ps) name ((lookupA m (p :: ps)).getD name)
        else dictInsert (p :: ps) name name
      | none => dictInsert (p :: ps) name name) = _
    rw [hr]
    exact if_neg (Nat.not_lt.mpr hs)

/-- Shape of one loop iteration on a fresh name: the dict grows by exactly
one appended entry, whose value is either the name itself or a value
already stored in the dict. -/
theorem runStep_fst_shape {g : List (String × String)} {name : String}
    (scorer : String → String → Nat) (t : Nat)
    (log : List (String × List String × Option (String × Nat))) (h : name ∉ keysOf g) :
    ∃ w, (runStep scorer t (g, log) name).1 = g ++ [(name, w)] ∧
      (w = name ∨ ∃ u, (u, w) ∈ g) := by
  cases g with
  | nil => exact ⟨name, by rw [runStep_empty]; rfl, Or.inl rfl⟩
  | cons p ps =>
    have hg : (p :: ps) ≠ ([] : List (String × String)) := by simp
    have hks : keysOf (p :: ps) ≠ [] := by simp [keysOf]
    obtain ⟨m, s, hr⟩ := extractOne_ne_nil scorer name hks
    by_cases hgt : t < s
    · have hm : m ∈ keysOf (p :: ps) := (extractOne_spec hr).1
      obtain ⟨w, hw⟩ := exists_lookupA_of_mem hm
      refine ⟨w, ?_, Or.inr ⟨m, lookupA_some_mem hw⟩⟩
      rw [runStep_merge hg hr hgt, hw, Option.getD_some, dictInsert_of_not_mem h]
    · refine ⟨name, ?_, Or.inl rfl⟩
      rw [runStep_keep hg hr (Nat.not_lt.mp hgt), dictInsert_of_not_mem h]

/-! ### First-occurrence index -/

/-- Index of the first occurrence of a string in a list (the length of the
list when absent). -/
def idxIn (x : String) : List String → Nat
  | [] => 0
  | y :: ys => if y = x then 0 else idxIn x ys + 1

theorem idxIn_append_of_mem {x : String} {l : List String} (h : x ∈ l)
    (l' : List String) : idxIn x (l ++ l') = idxIn x l := by
  induction l with
  | nil => simp at h
  | cons y ys ih =>
    rw [List.cons_append, idxIn, idxIn]
    by_cases hy : y = x
    · rw [if_pos hy, if_pos hy]
    · rw [if_neg hy, if_neg hy, ih]
      rcases List.mem_cons.mp h with h1 | h2
      · exact absurd h1.symm hy
      · exact h2

theorem idxIn_lt_length {x : String} {l : List String} (h : x ∈ l) :
    idxIn x l < l.length := by
  induction l with
  | nil => simp at h
  | cons y ys ih =>
    rw [idxIn, List.length_cons]
    by_cases hy : y = x
    · rw [if_pos hy]; exact Nat.succ_pos _
    · rw [if_neg hy]
      rcases List.mem_cons.mp h with h1 | h2
      · exact absurd h1.symm hy
      · exact Nat.succ_lt_succ (ih h2)

theorem idxIn_append_self {x : String} {l : List String} (h : x ∉ l) :
    idxIn x (l ++ [x]) = l.length := by
  induction l with
  | nil => simp [idxIn]
  | cons y ys ih =>
    have hy : y ≠ x := fun hxy => h (by rw [hxy]; exact List.mem_cons_self _ _)
    rw [List.cons_append, idxIn, if_neg hy, List.length_cons,
      ih (fun hx => h (List.mem_cons_of_mem _ hx))]

/-! ### Run invariants -/

/-- Every value stored in the dict is also one of its keys. -/
def ValuesKeys (g : List (String × String)) : Prop := ∀ p ∈ g, p.2 ∈ keysOf g

/-- Canonical fixed point: every stored value maps to itself. -/
def FixedPt (g : List (String × String)) : Prop := ∀ p ∈ g, lookupA p.2 g = some p.2

/-- Every entry grouped under a different name points at a strictly
earlier key (first-occurrence order of the keys). -/
def CanonFirst (g : List (String × String)) : Prop :=
  ∀ p ∈ g, p.2 ≠ p.1 → idxIn p.2 (keysOf g) < idxIn p.1 (keysOf g)

theorem keysOf_single (k v : String) : keysOf [(k, v)] = [k] := rfl

/-- Main induction over the clustering pass: starting from a dict whose
keys together with the remaining names are distinct and which satisfies
the three run invariants, the pass appends exactly the remaining names as
keys, preserves every existing entry, and maintains the invariants. -/
theorem fold_invariant (scorer : String → String → Nat) (t : Nat) :
    ∀ (rest : List String) (g : List (String × String))
      (log : List (String × List String × Option (String × Nat))),
      (keysOf g ++ rest).Nodup → ValuesKeys g → FixedPt g → CanonFirst g →
      keysOf (List.foldl (runStep scorer t) (g, log) rest).1 = keysOf g ++ rest ∧
      ValuesKeys (List.foldl (runStep scorer t) (g, log) rest).1 ∧
      FixedPt (List.foldl (runStep scorer t) (g, log) rest).1 ∧
      CanonFirst (List.foldl (runStep scorer t) (g, log) rest).1 ∧
      (∀ k v, lookupA k g = some v →
        lookupA k (List.foldl (runStep scorer t) (g, log) rest).1 = some v) := by
  intro rest
  induction rest with
  | nil =>
    intro g log hnd hvk hfp hcf
    rw [List.foldl_nil]
    exact ⟨by rw [List.append_nil], hvk, hfp, hcf, fun k v hk => hk⟩
  | cons n rest' ih =>
    intro g log hnd hvk hfp hcf
    have hparts := List.nodup_append.mp hnd
    have hfresh : n ∉ keysOf g := fun hn => hparts.2.2 hn (List.mem_cons_self _ _)
    obtain ⟨w, hw, hwcase⟩ := runStep_fst_shape scorer t log hfresh
    have hwmem : w = n ∨ w ∈ keysOf g := by
      rcases hwcase with h1 | ⟨u, hu⟩
      · exact Or.inl h1
      · exact Or.inr (hvk (u, w) hu)
    have hvk1 : ValuesKeys (g ++ [(n, w)]) := by
      intro p hp
      rw [keysOf_append, keysOf_single]
      rcases List.mem_append.mp hp with hp1 | hp2
      · exact List.mem_append_left _ (hvk p hp1)
      · have hpe : p = (n, w) := by simpa using hp2
        rw [hpe]
        show w ∈ keysOf g ++ [n]
        rcases hwmem with h1 | h2
        · rw [h1]; exact List.mem_append_right _ (List.mem_cons_self _ _)
        · exact List.mem_append_left _ h2
    have hfp1 : FixedPt (g ++ [(n, w)]) := by
      intro p hp
      rcases List.mem_append.mp hp with hp1 | hp2
      · rw [lookupA_append_of_mem (hvk p hp1)]
        exact hfp p hp1
      · have hpe : p = (n, w) := by simpa using hp2
        rw [hpe]
        show lookupA w (g ++ [(n, w)]) = some w
        rcases hwcase with h1 | ⟨u, hu⟩
        · rw [h1]
          exact lookupA_append_self hfresh
        · have hwk : w ∈ keysOf g := hvk (u, w) hu
          rw [lookupA_append_of_mem hwk]
          exact hfp (u, w) hu
    have hcf1 : CanonFirst (g ++ [(n, w)]) := by
      intro p hp hne
      rw [keysOf_append, keysOf_single]
      rcases List.mem_append.mp hp with hp1 | hp2
      · have h1 : p.1 ∈ keysOf g := mem_keysOf_of_mem hp1
        have h2 : p.2 ∈ keysOf g := hvk p hp1
        rw [idxIn_append_of_mem h2, idxIn_append_of_mem h1]
        exact hcf p hp1 hne
      · have hpe : p = (n, w) := by simpa using hp2
        rw [hpe] at hne ⊢
        show idxIn w (keysOf g ++ [n]) < idxIn n (keysOf g ++ [n])
        have hwn : w ≠ n := hne
        have hwk : w ∈ keysOf g := by
          rcases hwmem with h1 | h2
          · exact absurd h1 hwn
          · exact h2
        rw [idxIn_append_of_mem hwk, idxIn_append_self hfresh]
        exact idxIn_lt_length hwk
    have hnd1 : (keysOf (g ++ [(n, w)]) ++ rest').Nodup := by
      rw [keysOf_append, keysOf_single, List.append_assoc, List.singleton_append]
      exact hnd
    have hstate : runStep scorer t (g, log) n =
        (g ++ [(n, w)], (runStep scorer t (g, log) n).2) := by
      rw [← hw]
    have ihres := ih (g ++ [(n, w)]) ((runStep scorer t (g, log) n).2) hnd1 hvk1 hfp1 hcf1
    rw [List.foldl_cons, hstate]
    refine ⟨?_, ihres.2.1, ihres.2.2.1, ihres.2.2.2.1, ?_⟩
    · rw [ihres.1, keysOf_append, keysOf_single, List.append_assoc, List.singleton_append]
    · intro k v hk
      apply ihres.2.2.2.2
      rw [lookupA_append_of_mem (mem_keysOf_of_lookupA hk)]
      exact hk

theorem valuesKeys_append {g : List (String × String)} {n w : String}
    (hvk : ValuesKeys g) (hw : w = n ∨ w ∈ keysOf g) : ValuesKeys (g ++ [(n, w)]) := by
  intro p hp
  rw [keysOf_append, keysOf_single]
  rcases List.mem_append.mp hp with hp1 | hp2
  · exact List.mem_append_left _ (hvk p hp1)
  · have hpe : p = (n, w) := by simpa using hp2
    rw [hpe]
    show w ∈ keysOf g ++ [n]
    rcases hw with h1 | h2
    · rw [h1]; exact List.mem_append_right _ (List.mem_cons_self _ _)
    · exact List.mem_append_left _ h2

/-! ### The oracle-call log -/

/-- Expected shape of the oracle-call log: each name after the first is
queried against the list of all names that came before it. -/
def prevQueries (pre : List String) : List String → List (String × List String)
  | [] => []
  | n :: rest =>
    (if pre.isEmpty then [] else [(n, pre)]) ++ prevQueries (pre ++ [n]) rest

/-- The candidate and comparison set of every oracle call: each name after
the first is queried against all previously inserted keys. -/
theorem queries_fold (scorer : String → String → Nat) (t : Nat) :
    ∀ (rest : List String) (g : List (String × String))
      (log : List (String × List String × Option (String × Nat))),
      (keysOf g ++ rest).Nodup →
      (List.foldl (runStep scorer t) (g, log) rest).2.map (fun q => (q.1, q.2.1)) =
        log.map (fun q => (q.1, q.2.1)) ++ prevQueries (keysOf g) rest := by
  intro rest
  induction rest with
  | nil =>
    intro g log hnd
    rw [List.foldl_nil, prevQueries, List.append_nil]
  | cons n rest' ih =>
    intro g log hnd
    have hparts := List.nodup_append.mp hnd
    have hfresh : n ∉ keysOf g := fun hn => hparts.2.2 hn (List.mem_cons_self _ _)
    cases g with
    | nil =>
      rw [List.foldl_cons, runStep_empty,
        ih [(n, n)] log (by simpa using hnd)]
      simp [prevQueries, keysOf]
    | cons p ps =>
      have hgne : (p :: ps) ≠ ([] : List (String × String)) := by simp
      obtain ⟨w, hw, -⟩ := runStep_fst_shape scorer t log hfresh
      have hstate : runStep scorer t (p :: ps, log) n =
          ((p :: ps) ++ [(n, w)],
           log ++ [(n, keysOf (p :: ps), extractOne scorer n (keysOf (p :: ps)))]) := by
        rw [← hw, ← runStep_snd_ne scorer t log n hgne]
      have hnd1 : (keysOf ((p :: ps) ++ [(n, w)]) ++ rest').Nodup := by
        rw [keysOf_append, keysOf_single, List.append_assoc, List.singleton_append]
        exact hnd
      rw [List.foldl_cons, hstate, ih _ _ hnd1, keysOf_append, keysOf_single]
      rw [prevQueries]
      have hne : (keysOf (p :: ps)).isEmpty = false := by simp [keysOf]
      rw [hne]
      simp

/-- Every oracle call in the log is made with a non-empty comparison set
and gets a real answer back. -/
theorem trace_queries_nonempty (scorer : String → String → Nat) (t : Nat) :
    ∀ (rest : List String) (g : List (String × String))
      (log : List (String × List String × Option (String × Nat))),
      (∀ q ∈ log, q.2.1 ≠ [] ∧ ∃ m s, q.2.2 = some (m, s)) →
      ∀ q ∈ (List.foldl (runStep scorer t) (g, log) rest).2,
        q.2.1 ≠ [] ∧ ∃ m s, q.2.2 = some (m, s) := by
  intro rest
  induction rest with
  | nil =>
    intro g log hlog
    rw [List.foldl_nil]
    exact hlog
  | cons n rest' ih =>
    intro g log hlog
    cases g with
    | nil =>
      rw [List.foldl_cons, runStep_empty]
      exact ih _ _ hlog
    | cons p ps =>
      have hgne : (p :: ps) ≠ ([] : List (String × String)) := by simp
      have hstate : runStep scorer t (p :: ps, log) n =
          ((runStep scorer t (p :: ps, log) n).1,
           log ++ [(n, keysOf (p :: ps), extractOne scorer n (keysOf (p :: ps)))]) := by
        rw [← runStep_snd_ne scorer t log n hgne]
      rw [List.foldl_cons, hstate]
      apply ih
      intro q hq
      rcases List.mem_append.mp hq with hq1 | hq2
      · exact hlog q hq1
      · have hqe : q = (n, keysOf (p :: ps), extractOne scorer n (keysOf (p :: ps))) := by
          simpa using hq2
        have hks : keysOf (p :: ps) ≠ [] := by simp [keysOf]
        obtain ⟨m, s, hr⟩ := extractOne_ne_nil scorer n hks
        rw [hqe]
        exact ⟨hks, m, s, hr⟩

/-- Every oracle call in the log got a real (match, score) answer, and
whenever the score did not exceed the threshold, the queried name is
grouped under itself in the final mapping. -/
theorem trace_decides (scorer : String → String → Nat) (t : Nat) :
    ∀ (rest : List String) (g : List (String × String))
      (log : List (String × List String × Option (String × Nat))),
      (keysOf g ++ rest).Nodup →
      (∀ q ∈ log, ∃ m s, q.2.2 = some (m, s) ∧
        (s ≤ t → lookupA q.1 g = some q.1)) →
      ∀ q ∈ (List.foldl (runStep scorer t) (g, log) rest).2,
        ∃ m s, q.2.2 = some (m, s) ∧
          (s ≤ t →
            lookupA q.1 (List.foldl (runStep scorer t) (g, log) rest).1 = some q.1) := by
  intro rest
  induction rest with
  | nil =>
    intro g log hnd hlog
    rw [List.foldl_nil]
    exact hlog
  | cons n rest' ih =>
    intro g log hnd hlog
    have hparts := List.nodup_append.mp hnd
    have hfresh : n ∉ keysOf g := fun hn => hparts.2.2 hn (List.mem_cons_self _ _)
    cases g with
    | nil =>
      rw [List.foldl_cons, runStep_empty]
      apply ih _ _ (by simpa using hnd)
      intro q hq
      obtain ⟨m, s, hopt, himp⟩ := hlog q hq
      refine ⟨m, s, hopt, fun hst => ?_⟩
      have h0 := himp hst
      simp [lookupA] at h0
    | cons p ps =>
      have hgne : (p :: ps) ≠ ([] : List (String × String)) := by simp
      have hks : keysOf (p :: ps) ≠ [] := by simp [keysOf]
      obtain ⟨m, s, hr⟩ := extractOne_ne_nil scorer n hks
      have hnd1 : ∀ w : String, (keysOf ((p :: ps) ++ [(n, w)]) ++ rest').Nodup := by
        intro w
        rw [keysOf_append, keysOf_single, List.append_assoc, List.singleton_append]
        exact hnd
      by_cases hgt : t < s
      · have hm : m ∈ keysOf (p :: ps) := (extractOne_spec hr).1
        obtain ⟨w, hwl⟩ := exists_lookupA_of_mem hm
        have hw1 : (runStep scorer t (p :: ps, log) n).1 = (p :: ps) ++ [(n, w)] := by
          rw [runStep_merge hgne hr hgt, hwl, Option.getD_some, dictInsert_of_not_mem hfresh]
        have hstate : runStep scorer t (p :: ps, log) n =
            ((p :: ps) ++ [(n, w)],
             log ++ [(n, keysOf (p :: ps), extractOne scorer n (keysOf (p :: ps)))]) := by
          rw [← hw1, ← runStep_snd_ne scorer t log n hgne]
        rw [List.foldl_cons, hstate]
        apply ih _ _ (hnd1 w)
        intro q hq
        rcases List.mem_append.mp hq with hq1 | hq2
        · obtain ⟨m', s', hopt, himp⟩ := hlog q hq1
          refine ⟨m', s', hopt, fun hst => ?_⟩
          rw [lookupA_append_of_mem (mem_keysOf_of_lookupA (himp hst))]
          exact himp hst
        · have hqe : q = (n, keysOf (p :: ps), extractOne scorer n (keysOf (p :: ps))) := by
            simpa using hq2
          rw [hqe]
          exact ⟨m, s, hr, fun hst => absurd hst (by omega)⟩
      · have hsle : s ≤ t := Nat.not_lt.mp hgt
        have hw1 : (runStep scorer t (p :: ps, log) n).1 = (p :: ps) ++ [(n, n)] := by
          rw [runStep_keep hgne hr hsle, dictInsert_of_not_mem hfresh]
        have hstate : runStep scorer t (p :: ps, log) n =
            ((p :: ps) ++ [(n, n)],
             log ++ [(n, keysOf (p :: ps), extractOne scorer n (keysOf (p :: ps)))]) := by
          rw [← hw1, ← runStep_snd_ne scorer t log n hgne]
        rw [List.foldl_cons, hstate]
        apply ih _ _ (hnd1 n)
        intro q hq
        rcases List.mem_append.mp hq with hq1 | hq2
        · obtain ⟨m', s', hopt, himp⟩ := hlog q hq1
          refine ⟨m', s', hopt, fun hst => ?_⟩
          rw [lookupA_append_of_mem (mem_keysOf_of_lookupA (himp hst))]
          exact himp hst
        · have hqe : q = (n, keysOf (p :: ps), extractOne scorer n (keysOf (p :: ps))) := by
            simpa using hq2
          rw [hqe]
          exact ⟨m, s, hr, fun _ => lookupA_append_self hfresh⟩

/-- Transfer of the self-grouped property across one appended entry, for
two parallel runs whose dicts have the same keys. -/
theorem self_imp_append {g₁ g₂ : List (String × String)} {n w₁ w₂ : String}
    (_hfresh : n ∉ keysOf g₁) (hkeys : keysOf g₁ = keysOf g₂)
    (himp : ∀ k, lookupA k g₁ = some k → lookupA k g₂ = some k)
    (hn : w₁ = n → w₂ = n) :
    ∀ k, lookupA k (g₁ ++ [(n, w₁)]) = some k →
      lookupA k (g₂ ++ [(n, w₂)]) = some k := by
  intro k hk
  by_cases hkg : k ∈ keysOf g₁
  · rw [lookupA_append_of_mem hkg] at hk
    rw [lookupA_append_of_mem (hkeys ▸ hkg)]
    exact himp k hk
  · rw [lookupA_append_of_not_mem hkg] at hk
    by_cases hnk : n = k
    · have hw : w₁ = k := by simpa [lookupA, hnk] using hk
      have hw2 : w₂ = n := hn (hw.trans hnk.symm)
      rw [lookupA_append_of_not_mem (hkeys ▸ hkg), lookupA, if_pos hnk, hw2, hnk]
    · have h0 : lookupA k [(n, w₁)] = none := by simp [lookupA, hnk]
      rw [h0] at hk
      exact absurd hk (by simp)

/-- Parallel induction over two runs of the pass on the same names with
thresholds `t ≤ t'`: the dicts keep identical keys, and any name grouped
under itself at the lower threshold is also grouped under itself at the
higher one. -/
theorem mono_fold (scorer : String → String → Nat) {t t' : Nat} (htt : t ≤ t') :
    ∀ (rest : List String) (g₁ g₂ : List (String × String))
      (log₁ log₂ : List (String × List String × Option (String × Nat))),
      keysOf g₁ = keysOf g₂ →
      (keysOf g₁ ++ rest).Nodup →
      ValuesKeys g₁ → ValuesKeys g₂ →
      (∀ k, lookupA k g₁ = some k → lookupA k g₂ = some k) →
      keysOf (List.foldl (runStep scorer t) (g₁, log₁) rest).1 =
        keysOf (List.foldl (runStep scorer t') (g₂, log₂) rest).1 ∧
      (∀ k, lookupA k (List.foldl (runStep scorer t) (g₁, log₁) rest).1 = some k →
        lookupA k (List.foldl (runStep scorer t') (g₂, log₂) rest).1 = some k) := by
  intro rest
  induction rest with
  | nil =>
    intro g₁ g₂ log₁ log₂ hkeys hnd hvk₁ hvk₂ himp
    rw [List.foldl_nil, List.foldl_nil]
    exact ⟨hkeys, himp⟩
  | cons n rest' ih =>
    intro g₁ g₂ log₁ log₂ hkeys hnd hvk₁ hvk₂ himp
    have hparts := List.nodup_append.mp hnd
    have hfresh₁ : n ∉ keysOf g₁ := fun hn => hparts.2.2 hn (List.mem_cons_self _ _)
    have hfresh₂ : n ∉ keysOf g₂ := hkeys ▸ hfresh₁
    cases g₁ with
    | nil =>
      have hg₂ : g₂ = [] := keysOf_eq_nil_iff.mp (by rw [← hkeys]; rfl)
      subst hg₂
      rw [List.foldl_cons, List.foldl_cons, runStep_empty, runStep_empty]
      apply ih
      · rfl
      · simpa using hnd
      · intro p hp
        have hpe : p = (n, n) := by simpa using hp
        rw [hpe]
        exact List.mem_cons_self _ _
      · intro p hp
        have hpe : p = (n, n) := by simpa using hp
        rw [hpe]
        exact List.mem_cons_self _ _
      · exact fun k hk => hk
    | cons p ps =>
      have hgne₁ : (p :: ps) ≠ ([] : List (String × String)) := by simp
      have hgne₂ : g₂ ≠ [] := fun h0 => by
        rw [h0] at hkeys
        exact hgne₁ (keysOf_eq_nil_iff.mp hkeys)
      have hks : keysOf (p :: ps) ≠ [] := by simp [keysOf]
      obtain ⟨m, s, hr₁⟩ := extractOne_ne_nil scorer n hks
      have hr₂ : extractOne scorer n (keysOf g₂) = some (m, s) := by
        rw [← hkeys]; exact hr₁
      have hm₁ : m ∈ keysOf (p :: ps) := (extractOne_spec hr₁).1
      have hm₂ : m ∈ keysOf g₂ := hkeys ▸ hm₁
      have hndstep : ∀ w : String, (keysOf ((p :: ps) ++ [(n, w)]) ++ rest').Nodup := by
        intro w
        rw [keysOf_append, keysOf_single, List.append_assoc, List.singleton_append]
        exact hnd
      have hkeysstep : ∀ w₁ w₂ : String,
          keysOf ((p :: ps) ++ [(n, w₁)]) = keysOf (g₂ ++ [(n, w₂)]) := by
        intro w₁ w₂
        rw [keysOf_append, keysOf_append, keysOf_single, keysOf_single, hkeys]
      by_cases h₂ : t' < s
      · have h₁ : t < s := Nat.lt_of_le_of_lt htt h₂
        obtain ⟨w₁, hw₁⟩ := exists_lookupA_of_mem hm₁
        obtain ⟨w₂, hw₂⟩ := exists_lookupA_of_mem hm₂
        have hst₁ : (runStep scorer t (p :: ps, log₁) n).1 = (p :: ps) ++ [(n, w₁)] := by
          rw [runStep_merge hgne₁ hr₁ h₁, hw₁, Option.getD_some, dictInsert_of_not_mem hfresh₁]
        have hst₂ : (runStep scorer t' (g₂, log₂) n).1 = g₂ ++ [(n, w₂)] := by
          rw [runStep_merge hgne₂ hr₂ h₂, hw₂, Option.getD_some, dictInsert_of_not_mem hfresh₂]
        have hpair₁ : runStep scorer t (p :: ps, log₁) n =
            ((p :: ps) ++ [(n, w₁)], (runStep scorer t (p :: ps, log₁) n).2) := by
          rw [← hst₁]
        have hpair₂ : runStep scorer t' (g₂, log₂) n =
            (g₂ ++ [(n, w₂)], (runStep scorer t' (g₂, log₂) n).2) := by
          rw [← hst₂]
        rw [List.foldl_cons, List.foldl_cons, hpair₁, hpair₂]
        apply ih _ _ _ _ (hkeysstep w₁ w₂) (hndstep w₁)
        · exact valuesKeys_append hvk₁ (Or.inr (hvk₁ (m, w₁) (lookupA_some_mem hw₁)))
        · exact valuesKeys_append hvk₂ (Or.inr (hvk₂ (m, w₂) (lookupA_some_mem hw₂)))
        · apply self_imp_append hfresh₁ hkeys himp
          intro hw₁n
          exact absurd (hw₁n ▸ hvk₁ (m, w₁) (lookupA_some_mem hw₁)) hfresh₁
      · by_cases h₁ : t < s
        · obtain ⟨w₁, hw₁⟩ := exists_lookupA_of_mem hm₁
          have hst₁ : (runStep scorer t (p :: ps, log₁) n).1 = (p :: ps) ++ [(n, w₁)] := by
            rw [runStep_merge hgne₁ hr₁ h₁, hw₁, Option.getD_some, dictInsert_of_not_mem hfresh₁]
          have hst₂ : (runStep scorer t' (g₂, log₂) n).1 = g₂ ++ [(n, n)] := by
            rw [runStep_keep hgne₂ hr₂ (Nat.not_lt.mp h₂), dictInsert_of_not_mem hfresh₂]
          have hpair₁ : runStep scorer t (p :: ps, log₁) n =
              ((p :: ps) ++ [(n, w₁)], (runStep scorer t (p :: ps, log₁) n).2) := by
            rw [← hst₁]
          have hpair₂ : runStep scorer t' (g₂, log₂) n =
              (g₂ ++ [(n, n)], (runStep scorer t' (g₂, log₂) n).2) := by
            rw [← hst₂]
          rw [List.foldl_cons, List.foldl_cons, hpair₁, hpair₂]
          apply ih _ _ _ _ (hkeysstep w₁ n) (hndstep w₁)
          · exact valuesKeys_append hvk₁ (Or.inr (hvk₁ (m, w₁) (lookupA_some_mem hw₁)))
          · exact valuesKeys_append hvk₂ (Or.inl rfl)
          · apply self_imp_append hfresh₁ hkeys himp
            intro hw₁n
            exact absurd (hw₁n ▸ hvk₁ (m, w₁) (lookupA_some_mem hw₁)) hfresh₁
        · have hst₁ : (runStep scorer t (p :: ps, log₁) n).1 = (p :: ps) ++ [(n, n)] := by
            rw [runStep_keep hgne₁ hr₁ (Nat.not_lt.mp h₁), dictInsert_of_not_mem hfresh₁]
          have hst₂ : (runStep scorer t' (g₂, log₂) n).1 = g₂ ++ [(n, n)] := by
            rw [runStep_keep hgne₂ hr₂ (Nat.not_lt.mp h₂), dictInsert_of_not_mem hfresh₂]
          have hpair₁ : runStep scorer t (p :: ps, log₁) n =
              ((p :: ps) ++ [(n, n)], (runStep scorer t (p :: ps, log₁) n).2) := by
            rw [← hst₁]
          have hpair₂ : runStep scorer t' (g₂, log₂) n =
              (g₂ ++ [(n, n)], (runStep scorer t' (g₂, log₂) n).2) := by
            rw [← hst₂]
          rw [List.foldl_cons, List.foldl_cons, hpair₁, hpair₂]
          apply ih _ _ _ _ (hkeysstep n n) (hndstep n)
          · exact valuesKeys_append hvk₁ (Or.inl rfl)
          · exact valuesKeys_append hvk₂ (Or.inl rfl)
          · exact self_imp_append hfresh₁ hkeys himp (fun _ => rfl)

/-- When the scorer never exceeds the threshold, every step takes the
self-grouping branch, so the pass appends only identity entries. -/
theorem const_fold {scorer : String → String → Nat} {t : Nat}
    (hb : ∀ a b, scorer a b ≤ t) :
    ∀ (rest : List String) (g : List (String × String))
      (log : List (String × List String × Option (String × Nat))),
      (keysOf g ++ rest).Nodup →
      (List.foldl (runStep scorer t) (g, log) rest).1 =
        g ++ rest.map (fun n => (n, n)) := by
  intro rest
  induction rest with
  | nil =>
    intro g log hnd
    rw [List.foldl_nil, List.map_nil, List.append_nil]
  | cons n rest' ih =>
    intro g log hnd
    have hparts := List.nodup_append.mp hnd
    have hfresh : n ∉ keysOf g := fun hn => hparts.2.2 hn (List.mem_cons_self _ _)
    cases g with
    | nil =>
      rw [List.foldl_cons, runStep_empty, ih [(n, n)] log (by simpa using hnd)]
      simp
    | cons p ps =>
      have hgne : (p :: ps) ≠ ([] : List (String × String)) := by simp
      have hks : keysOf (p :: ps) ≠ [] := by simp [keysOf]
      obtain ⟨m, s, hr⟩ := extractOne_ne_nil scorer n hks
      have hs : s ≤ t := by
        rw [(extractOne_spec hr).2]
        exact hb n m
      have hst : (runStep scorer t (p :: ps, log) n).1 = (p :: ps) ++ [(n, n)] := by
        rw [runStep_keep hgne hr hs, dictInsert_of_not_mem hfresh]
      have hpair : runStep scorer t (p :: ps, log) n =
          ((p :: ps) ++ [(n, n)], (runStep scorer t (p :: ps, log) n).2) := by
        rw [← hst]
      have hnd1 : (keysOf ((p :: ps) ++ [(n, n)]) ++ rest').Nodup := by
        rw [keysOf_append, keysOf_single, List.append_assoc, List.singleton_append]
        exact hnd
      rw [List.foldl_cons, hpair, ih _ _ hnd1]
      simp

theorem valuesKeys_nil : ValuesKeys [] := fun p hp => absurd hp (List.not_mem_nil p)

theorem fixedPt_nil : FixedPt [] := fun p hp => absurd hp (List.not_mem_nil p)

theorem canonFirst_nil : CanonFirst [] := fun p hp => absurd hp (List.not_mem_nil p)

/-- The run invariants at the end of a full pass from the empty dict. -/
theorem run_invariants (scorer : String → String → Nat) (t : Nat)
    (names : List String) (hnd : names.Nodup) :
    keysOf (fuzzy_grouping scorer t names) = names ∧
    ValuesKeys (fuzzy_grouping scorer t names) ∧
    FixedPt (fuzzy_grouping scorer t names) ∧
    CanonFirst (fuzzy_grouping scorer t names) := by
  have h := fold_invariant scorer t names [] []
    (by simpa [keysOf] using hnd) valuesKeys_nil fixedPt_nil canonFirst_nil
  exact ⟨by simpa [keysOf] using h.1, h.2.1, h.2.2.1, h.2.2.2.1⟩

/-- A string is a value of the final mapping exactly when the mapping
groups it under itself. -/
theorem mem_values_iff (scorer : String → String → Nat) (t : Nat)
    {names : List String} (hnd : names.Nodup) (v : String) :
    v ∈ (fuzzy_grouping scorer t names).map Prod.snd ↔
      lookupA v (fuzzy_grouping scorer t names) = some v := by
  constructor
  · intro hv
    obtain ⟨p, hp, hpv⟩ := List.mem_map.mp hv
    have hfp := (run_invariants scorer t names hnd).2.2.1 p hp
    rw [← hpv]
    exact hfp
  · intro hv
    exact List.mem_map.mpr ⟨(v, v), lookupA_some_mem hv, rfl⟩

/-! ### Claims -/

/-- Claim C1, counterexample: with a constant-95 scorer and threshold 89
on `["A", "B", "C"]`, the name "B" merges into the cluster of "A", yet the
comparison set of the third oracle call is `["A", "B"]` — two elements,
while only one cluster has been formed so far.  The oracle is therefore
not queried against one name per cluster, refuting the claim as stated. -/
theorem claim1_query_sets_cex :
    (fuzzy_grouping_run (fun _ _ => 95) 89 ["A", "B", "C"]).2.map (fun q => (q.1, q.2.1)) =
      [("B", ["A"]), ("C", ["A", "B"])] ∧
    fuzzy_grouping (fun _ _ => 95) 89 ["A", "B"] = [("A", "A"), ("B", "A")] ∧
    numClusters (fuzzy_grouping (fun _ _ => 95) 89 ["A", "B"]) = 1 ∧
    (["A", "B"] : List String).length ≠
      numClusters (fuzzy_grouping (fun _ _ => 95) 89 ["A", "B"]) := by
  refine ⟨by decide, by decide, by decide, by decide⟩

/-- Claim C1, amended: at every step after the first, the oracle is
queried with the candidate against the list of ALL names inserted so far
— one element per previously processed name, whether it merged or not —
because merged names are recorded as keys of the mapping and the
comparison set is the key list. -/
theorem claim1_queries_all_previous_names (scorer : String → String → Nat) (t : Nat)
    (names : List String) (hnd : names.Nodup) :
    (fuzzy_grouping_run scorer t names).2.map (fun q => (q.1, q.2.1)) =
      prevQueries [] names := by
  have h := queries_fold scorer t names [] [] (by simpa [keysOf] using hnd)
  simpa [fuzzy_grouping_run, keysOf] using h

/-- Witness for the amended claim C1 at a concrete input. -/
theorem claim1_queries_all_previous_names_witness :
    (fuzzy_grouping_run (fun _ _ => 95) 89 ["A", "B", "C"]).2.map (fun q => (q.1, q.2.1)) =
      prevQueries [] ["A", "B", "C"] :=
  claim1_queries_all_previous_names (fun _ _ => 95) 89 ["A", "B", "C"] (by decide)

/-- Claim C2: for a fixed input of distinct names and a fixed scorer,
raising the threshold never makes a merge easier — every name grouped
under itself at threshold `t` is still grouped under itself at any
`t' ≥ t`, and the number of distinct clusters is monotonically
non-decreasing in the threshold. -/
theorem claim2_threshold_monotone (scorer : String → String → Nat) (t t' : Nat)
    (names : List String) (htt : t ≤ t') (hnd : names.Nodup) :
    (∀ n, lookupA n (fuzzy_grouping scorer t names) = some n →
      lookupA n (fuzzy_grouping scorer t' names) = some n) ∧
    numClusters (fuzzy_grouping scorer t names) ≤
      numClusters (fuzzy_grouping scorer t' names) := by
  have h := mono_fold scorer htt names [] [] [] [] rfl
    (by simpa [keysOf] using hnd) valuesKeys_nil valuesKeys_nil (fun k hk => hk)
  have hself : ∀ n, lookupA n (fuzzy_grouping scorer t names) = some n →
      lookupA n (fuzzy_grouping scorer t' names) = some n := fun n hn => h.2 n hn
  refine ⟨hself, ?_⟩
  apply Finset.card_le_card
  intro v hv
  rw [List.mem_toFinset] at hv ⊢
  rw [mem_values_iff scorer t hnd v] at hv
  rw [mem_values_iff scorer t' hnd v]
  exact hself v hv

/-- Witness for claim C2: with a constant-92 scorer, threshold 89 forms
one cluster out of `["A", "B"]` and threshold 95 forms two. -/
theorem claim2_threshold_monotone_witness :
    numClusters (fuzzy_grouping (fun _ _ => 92) 89 ["A", "B"]) ≤
      numClusters (fuzzy_grouping (fun _ _ => 92) 95 ["A", "B"]) :=
  (claim2_threshold_monotone (fun _ _ => 92) 89 95 ["A", "B"] (by decide) (by decide)).2

/-- Claim C3: a name whose oracle score equals the threshold exactly does
not merge — it is grouped under itself — and a merge (being grouped under
a different name) happens only when the score strictly exceeds the
threshold. -/
theorem claim3_threshold_exclusive (scorer : String → String → Nat) (t : Nat)
    (names : List String) (name : String) (ch : List String) (m : String) (s : Nat)
    (hnd : names.Nodup)
    (hq : (name, ch, some (m, s)) ∈ (fuzzy_grouping_run scorer t names).2) :
    (s = t → lookupA name (fuzzy_grouping scorer t names) = some name) ∧
    (∀ w, lookupA name (fuzzy_grouping scorer t names) = some w → w ≠ name → t < s) := by
  have h := trace_decides scorer t names [] [] (by simpa [keysOf] using hnd)
    (fun q hq0 => absurd hq0 (List.not_mem_nil q)) (name, ch, some (m, s)) hq
  obtain ⟨m', s', hopt, himp⟩ := h
  have hps : (m, s) = (m', s') := Option.some.inj hopt
  have hs' : s' = s := (congrArg Prod.snd hps).symm
  constructor
  · intro hst
    exact himp (by rw [hs', hst])
  · intro w hw hwne
    by_contra hnlt
    have hself : lookupA name (fuzzy_grouping scorer t names) = some name :=
      himp (by rw [hs']; exact Nat.not_lt.mp hnlt)
    rw [hw] at hself
    exact hwne (Option.some.inj hself)

/-- Witness for claim C3: a score of exactly 89 at threshold 89 leaves
"B" grouped under itself. -/
theorem claim3_threshold_exclusive_witness :
    lookupA "B" (fuzzy_grouping (fun _ _ => 89) 89 ["A", "B"]) = some "B" :=
  (claim3_threshold_exclusive (fun _ _ => 89) 89 ["A", "B"] "B" ["A"] "A" 89
    (by decide) (by decide)).1 rfl

/-- Claim C4: at every step (i.e. after every prefix of the input) the
mapping satisfies the canonical fixed-point invariant — every stored value
is a key grouped under itself — and every entry present after a prefix is
still present, unchanged, at the end of the run: canonical names are
immutable once chosen, clusters never get renamed, merged or split. -/
theorem claim4_canonical_fixed_point (scorer : String → String → Nat) (t : Nat)
    (names pre suf : List String) (hnd : names.Nodup) (hsplit : pre ++ suf = names) :
    (∀ p ∈ fuzzy_grouping scorer t pre,
      lookupA p.2 (fuzzy_grouping scorer t pre) = some p.2) ∧
    (∀ k v, lookupA k (fuzzy_grouping scorer t pre) = some v →
      lookupA k (fuzzy_grouping scorer t names) = some v) := by
  subst hsplit
  have hndpre : pre.Nodup := (List.nodup_append.mp hnd).1
  have hinv := run_invariants scorer t pre hndpre
  refine ⟨hinv.2.2.1, ?_⟩
  intro k v hk
  have hnd2 : (keysOf (fuzzy_grouping scorer t pre) ++ suf).Nodup := by
    rw [hinv.1]; exact hnd
  have h := fold_invariant scorer t suf (fuzzy_grouping scorer t pre)
    (fuzzy_grouping_run scorer t pre).2 hnd2 hinv.2.1 hinv.2.2.1 hinv.2.2.2
  have hres := h.2.2.2.2 k v hk
  have hsplitRun : fuzzy_grouping scorer t (pre ++ suf) =
      (List.foldl (runStep scorer t)
        (fuzzy_grouping scorer t pre, (fuzzy_grouping_run scorer t pre).2) suf).1 := by
    rw [fuzzy_grouping, fuzzy_grouping_run, List.foldl_append]
    rfl
  rw [hsplitRun]
  exact hres

/-- Witness for claim C4 at a concrete input and prefix. -/
theorem claim4_canonical_fixed_point_witness :
    lookupA "A" (fuzzy_grouping (fun _ _ => 95) 89 ["A", "B"]) = some "A" :=
  (claim4_canonical_fixed_point (fun _ _ => 95) 89 ["A", "B"] ["A"] ["B"]
    (by decide) rfl).2 "A" "A" (by decide)

/-- Claim C5: the output mapping is total and functional — its keys are
exactly the distinct input names, in order, and every input name looks up
to exactly one canonical name. -/
theorem claim5_totality (scorer : String → String → Nat) (t : Nat)
    (names : List String) (hnd : names.Nodup) :
    keysOf (fuzzy_grouping scorer t names) = names ∧
    ∀ n ∈ names, ∃ c, lookupA n (fuzzy_grouping scorer t names) = some c := by
  have hinv := run_invariants scorer t names hnd
  exact ⟨hinv.1, fun n hn => exists_lookupA_of_mem (by rw [hinv.1]; exact hn)⟩

/-- Witness for claim C5 at a concrete input. -/
theorem claim5_totality_witness :
    keysOf (fuzzy_grouping (fun _ _ => 95) 89 ["A", "B"]) = ["A", "B"] :=
  (claim5_totality (fun _ _ => 95) 89 ["A", "B"] (by decide)).1

/-- Claim C6: if the scorer never returns a score exceeding the threshold
(in particular a constant 0, or a constant 50 against threshold 89), every
input name becomes its own singleton canonical: the output maps every name
to itself. -/
theorem claim6_no_merge_below_threshold (scorer : String → String → Nat) (t : Nat)
    (names : List String) (hb : ∀ a b, scorer a b ≤ t) (hnd : names.Nodup) :
    fuzzy_grouping scorer t names = names.map (fun n => (n, n)) := by
  have h := const_fold hb names [] [] (by simpa [keysOf] using hnd)
  simpa using h

/-- Witness for claim C6: Scenario 2 of the spec, a constant-50 oracle at
threshold 89 on `["A", "B"]` yields two singletons. -/
theorem claim6_no_merge_below_threshold_witness :
    fuzzy_grouping (fun _ _ => 50) 89 ["A", "B"] = [("A", "A"), ("B", "B")] :=
  claim6_no_merge_below_threshold (fun _ _ => 50) 89 ["A", "B"]
    (by intro a b; show (50 : Nat) ≤ 89; decide) (by decide)

/-- Claim C7: with the token-sort scorer and threshold 89, the two
token-reordered Berkeley names land in one cluster, both mapped to the
first-seen string. -/
theorem claim7_scenario_token_sort :
    fuzzy_grouping tokenSortScore 89
      ["University of California Berkeley", "Berkeley University of California"] =
      [("University of California Berkeley", "University of California Berkeley"),
       ("Berkeley University of California", "University of California Berkeley")] := by
  decide

/-- Claim C8: the empty input produces the empty mapping and an empty
oracle-call log — a valid result, not an error. -/
theorem claim8_empty_input (scorer : String → String → Nat) (t : Nat) :
    fuzzy_grouping_run scorer t [] = ([], []) := rfl

/-- Claim C9: every oracle call the clusterer makes passes a non-empty
comparison set and receives a real (match, score) answer, so the
empty-comparison-set contract violation is unreachable. -/
theorem claim9_oracle_always_nonempty (scorer : String → String → Nat) (t : Nat)
    (names : List String) (q : String × List String × Option (String × Nat))
    (hq : q ∈ (fuzzy_grouping_run scorer t names).2) :
    q.2.1 ≠ [] ∧ ∃ m s, q.2.2 = some (m, s) :=
  trace_queries_nonempty scorer t names [] []
    (fun q0 hq0 => absurd hq0 (List.not_mem_nil q0)) q hq

/-- Witness for claim C9 at a concrete logged oracle call. -/
theorem claim9_oracle_always_nonempty_witness :
    (("B", ["A"], some ("A", 0)) : String × List String × Option (String × Nat)).2.1 ≠ [] ∧
    ∃ m s, (("B", ["A"], some ("A", 0)) :
      String × List String × Option (String × Nat)).2.2 = some (m, s) :=
  claim9_oracle_always_nonempty (fun _ _ => 0) 89 ["A", "B"] _ (by decide)

/-- Claim C10: a name that merges into an existing cluster is grouped
under a canonical that occurs strictly earlier in the input sequence, so
each cluster's canonical is its first-seen member. -/
theorem claim10_canonical_first_seen (scorer : String → String → Nat) (t : Nat)
    (names : List String) (n c : String) (hnd : names.Nodup)
    (hl : lookupA n (fuzzy_grouping scorer t names) = some c) (hne : c ≠ n) :
    idxIn c names < idxIn n names := by
  have hinv := run_invariants scorer t names hnd
  have hp : (n, c) ∈ fuzzy_grouping scorer t names := lookupA_some_mem hl
  have h := hinv.2.2.2 (n, c) hp hne
  rw [hinv.1] at h
  exact h

/-- Witness for claim C10 at a concrete merged pair. -/
theorem claim10_canonical_first_seen_witness :
    idxIn "A" ["A", "B"] < idxIn "B" ["A", "B"] :=
  claim10_canonical_first_seen (fun _ _ => 95) 89 ["A", "B"] "B" "A"
    (by decide) (by decide) (by decide)

end FuzzyDedup
